import Mathlib

/-!
Verification of the Annotation State Manager of the image coding tool
(`src/app.py`).  The program keeps two in-memory parallel sequences
`coded_labels` and `context_labels` (Python lists of length `N`, entries
`None` or a small integer code), a cursor `current_index`, and a persisted
progress store `progress_data` (a JSON object mapping stringified indices
to either a record `{'group_label': g, 'context': c}` or a legacy bare
value).  The definitions below are a shallow embedding of that state and
of the operations `main` performs on it: reconciliation at start-up
(app.py lines 160-177), the group-label buttons (262-275), the context
toggle buttons (290-320), the clear button (339-346), "go to next
uncoded" (221-232) and the export loops (389-406, 430-444).
-/

namespace ImageCoding

/-- A value stored in `coding_progress.json` under one key: either the
current record format `{'group_label': ..., 'context': ...}` — the
`context` field may be absent from the record, hence the outer `Option`
on that field — or a legacy bare group label (any JSON value that is not
a dict; the code only ever checks `isinstance(data, dict)`). -/
inductive PVal where
  | record (group_label : Option Nat) (context : Option (Option Nat))
  | legacy (v : Option Nat)
deriving DecidableEq, Repr

/-- The persisted store `progress_data`: a JSON object, i.e. an ordered
association list from string keys to values.  Keys of a Python dict are
unique; the operations below implement Python dict assignment
(`d[k] = v`: replace in place if present, else append) and deletion. -/
abbrev Store := List (String × PVal)

/-- `str(k) in progress_data` / `progress_data[str(k)]` : first-match
association lookup. -/
def lookupKey : Store → String → Option PVal
  | [], _ => none
  | e :: rest, k => if e.1 = k then some e.2 else lookupKey rest k

/-- Python dict assignment `progress_data[k] = v`: replace the entry in
place when the key is present, append it otherwise. -/
def upsert : Store → String → PVal → Store
  | [], k, v => [(k, v)]
  | e :: rest, k, v => if e.1 = k then (k, v) :: rest else e :: upsert rest k v

/-- `del progress_data[k]` guarded by `if k in progress_data` (app.py
lines 343-344).  Dict keys are unique, so removing every pair with the
key equals deleting the single entry, and the guard makes the operation
total. -/
def eraseKey : Store → String → Store
  | [], _ => []
  | e :: rest, k => if e.1 = k then eraseKey rest k else e :: eraseKey rest k

/-- The per-session state held in `st.session_state` plus the persisted
`progress_data` it writes through to. -/
structure SessionState where
  coded_labels : List (Option Nat)
  context_labels : List (Option Nat)
  current_index : Nat
  progress : Store
deriving DecidableEq, Repr

/-- Loop body of the `coded_labels` reconciliation loop (app.py lines
163-170): `if idx.isdigit() and int(idx) < len(metadata_df)` — for a
string of (ASCII) digits `String.toNat?` returns exactly `int(idx)`, and
it returns `none` on the strings `isdigit()` rejects — then
`coded_labels[int(idx)] = data.get('group_label')` when the value is a
dict (`.get` yields `None` both for an absent key and a stored null),
else `coded_labels[int(idx)] = data`. -/
def reconcileCodedStep (n : Nat) (acc : List (Option Nat)) (e : String × PVal) :
    List (Option Nat) :=
  match e.1.toNat? with
  | some i =>
    if i < n then
      match e.2 with
      | PVal.record g _ => acc.set i g
      | PVal.legacy v => acc.set i v
    else acc
  | none => acc

/-- Reconciliation of `coded_labels` from the persisted store (app.py
lines 160-170): start from `[None] * len(metadata_df)` and fold the loop
body over the store's entries. -/
def reconcileCoded (n : Nat) (p : Store) : List (Option Nat) :=
  p.foldl (reconcileCodedStep n) (List.replicate n none)

/-- Loop body of the `context_labels` reconciliation loop (app.py lines
174-177): `if isinstance(data, dict) and 'context' in data:
context_labels[int(idx)] = data['context']`. -/
def reconcileContextStep (n : Nat) (acc : List (Option Nat)) (e : String × PVal) :
    List (Option Nat) :=
  match e.1.toNat? with
  | some i =>
    if i < n then
      match e.2 with
      | PVal.record _ (some c) => acc.set i c
      | _ => acc
    else acc
  | none => acc

/-- Reconciliation of `context_labels` from the persisted store (app.py
lines 171-177). -/
def reconcileContext (n : Nat) (p : Store) : List (Option Nat) :=
  p.foldl (reconcileContextStep n) (List.replicate n none)

/-- Auto-jump scan on first start (app.py lines 180-186): the first index
whose label is `None`; `current_index` stays 0 when every label is set. -/
def firstUncoded (coded : List (Option Nat)) : Nat :=
  match coded.findIdx? (·.isNone) with
  | some i => i
  | none => 0

/-- Session initialization from an item count and the loaded store
(app.py lines 155-186). -/
def initState (n : Nat) (p : Store) : SessionState :=
  let coded := reconcileCoded n p
  { coded_labels := coded
    context_labels := reconcileContext n p
    current_index := firstUncoded coded
    progress := p }

/-- Category button handler (app.py lines 262-275):
`coded_labels[current_idx] = code`, then
`progress_data[str(current_idx)] = {'group_label': code,
'context': context_labels[current_idx]}` and save.  `current_index` is
not changed (no auto-advance). -/
def set_group_label (s : SessionState) (idx : Nat) (code : Nat) : SessionState :=
  { s with
    coded_labels := s.coded_labels.set idx (some code)
    progress := upsert s.progress (Nat.repr idx)
      (PVal.record (some code) (some (s.context_labels.getD idx none))) }

/-- Context toggle button handler (app.py lines 290-304 for Newscast,
`code = 1`, and 306-320 for Congress, `code = 2`; the two bodies are the
same up to the stored code).  `current_context` is read first; the click
clears `context_labels[current_idx]` when it equals the code and sets it
to the code otherwise, then writes
`progress_data[str(current_idx)] = {'group_label':
coded_labels[current_idx], 'context': context_labels[current_idx]}`,
the context read back from the already-updated list. -/
def toggle_context_label (s : SessionState) (idx : Nat) (code : Nat) : SessionState :=
  let cur := s.context_labels.getD idx none
  let newCtx : Option Nat := if cur = some code then none else some code
  let ctx := s.context_labels.set idx newCtx
  { s with
    context_labels := ctx
    progress := upsert s.progress (Nat.repr idx)
      (PVal.record (s.coded_labels.getD idx none) (some (ctx.getD idx none))) }

/-- Clear button handler (app.py lines 339-346): null both labels and
delete the persisted entry entirely when present. -/
def clear (s : SessionState) (idx : Nat) : SessionState :=
  { s with
    coded_labels := s.coded_labels.set idx none
    context_labels := s.context_labels.set idx none
    progress := eraseKey s.progress (Nat.repr idx) }

/-- The "go to next uncoded" query (app.py lines 221-232):
`for i in range(current_idx + 1, total_images): if coded_labels[i] is
None: next_uncoded = i; break` — the first index in the half-open range
`[after + 1, total)` whose label is `None`, where `total` is the length
of `coded_labels`.  It only reads `coded_labels`, so it is a pure
function of the sequence and the starting position. -/
def find_next_uncoded (coded : List (Option Nat)) (after : Nat) : Option Nat :=
  (List.range' (after + 1) (coded.length - (after + 1))).find?
    (fun i => (coded.getD i none).isNone)

/-- One row of the export loops (app.py lines 393-404 and 433-444):
`if str(i) in progress_data`, a dict entry contributes
`.get('group_label')` and `.get('context')` (absent field yields
`None`), a bare legacy entry contributes itself as the group label with
a null context, and an absent entry contributes `None, None`. -/
def exportRow (p : Store) (i : Nat) : Option Nat × Option Nat :=
  match lookupKey p (Nat.repr i) with
  | some (PVal.record g c) => (g, c.getD none)
  | some (PVal.legacy v) => (v, none)
  | none => (none, none)

/-- The export loop `for i in range(total_images)` producing the
`group_labels` and `context_labels` columns, one pair per item. -/
def exportRows (p : Store) (n : Nat) : List (Option Nat × Option Nat) :=
  (List.range n).map (exportRow p)

/-- A store whose numeric keys are written the way the program writes
them, as `str(i)` of their index (spec section 6: "a mapping from
stringified item index to ...").  Every store the program itself
produces satisfies this; it rules out denormal hand-made keys such as
`"00"`, which alias index 0 under `int(...)` but not under string
lookup. -/
def Canonical (p : Store) : Prop :=
  ∀ e ∈ p, ∀ i : Nat, e.1.toNat? = some i → e.1 = Nat.repr i

/-- The session/store relation of spec section 3, restricted to the
direction that actually holds in the code: a non-null in-memory label at
a valid index is always backed by a persisted entry for that index.
(The spec claims the two sides are equivalent; the converse direction is
refuted below.) -/
def EntryInv (s : SessionState) : Prop :=
  ∀ i : Nat, i < s.coded_labels.length →
    (s.coded_labels.getD i none ≠ none ∨ s.context_labels.getD i none ≠ none) →
    (lookupKey s.progress (Nat.repr i)).isSome = true

/-! ### Round trip between `str(i)` keys and `int(idx)` parsing

The program writes store keys with `str(current_idx)` (embedded as
`Nat.repr`) and reads them back with `idx.isdigit() and int(idx)`
(embedded as `String.toNat?`).  The lemmas here establish
`(Nat.repr n).toNat? = some n`, hence also injectivity of the keys. -/

/-- Most-significant-first decimal digit characters of `n`; this is what
`Nat.toDigits 10` produces (proved below). -/
def repDigits (n : Nat) : List Char :=
  if _h : n / 10 = 0 then [Nat.digitChar (n % 10)]
  else repDigits (n / 10) ++ [Nat.digitChar (n % 10)]
termination_by n
decreasing_by omega

theorem digitChar_isDigit {m : Nat} (h : m < 10) : (Nat.digitChar m).isDigit = true := by
  interval_cases m <;> decide

theorem digitChar_sub_zero {m : Nat} (h : m < 10) :
    (Nat.digitChar m).toNat - '0'.toNat = m := by
  interval_cases m <;> decide

theorem toDigitsCore_eq_repDigits :
    ∀ (fuel n : Nat) (acc : List Char), n < fuel →
      Nat.toDigitsCore 10 fuel n acc = repDigits n ++ acc := by
  intro fuel
  induction fuel with
  | zero => intro n acc h; exact absurd h (Nat.not_lt_zero n)
  | succ f ih =>
    intro n acc h
    rw [repDigits]
    have hstep : Nat.toDigitsCore 10 (f + 1) n acc
        = if n / 10 = 0 then Nat.digitChar (n % 10) :: acc
          else Nat.toDigitsCore 10 f (n / 10) (Nat.digitChar (n % 10) :: acc) := rfl
    rw [hstep]
    by_cases h10 : n / 10 = 0
    · rw [if_pos h10, dif_pos h10]
      rfl
    · rw [if_neg h10, dif_neg h10, ih (n / 10) (Nat.digitChar (n % 10) :: acc) (by omega)]
      simp

theorem toDigits_eq_repDigits (n : Nat) : Nat.toDigits 10 n = repDigits n := by
  rw [Nat.toDigits, toDigitsCore_eq_repDigits (n + 1) n [] (Nat.lt_succ_self n),
    List.append_nil]

theorem repDigits_ne_nil (n : Nat) : repDigits n ≠ [] := by
  rw [repDigits]; split <;> simp

theorem repDigits_isDigit (n : Nat) : ∀ c ∈ repDigits n, c.isDigit = true := by
  induction n using Nat.strong_induction_on with
  | _ n ih =>
    rw [repDigits]
    split
    · intro c hc
      rw [List.mem_singleton] at hc
      subst hc
      exact digitChar_isDigit (Nat.mod_lt n (by omega))
    · next h10 =>
      intro c hc
      rw [List.mem_append] at hc
      rcases hc with hc | hc
      · exact ih (n / 10) (by omega) c hc
      · rw [List.mem_singleton] at hc
        subst hc
        exact digitChar_isDigit (Nat.mod_lt n (by omega))

theorem foldl_repDigits (n : Nat) :
    ∀ a : Nat,
      (repDigits n).foldl (fun m c => m * 10 + (c.toNat - '0'.toNat)) a
        = a * 10 ^ (repDigits n).length + n := by
  induction n using Nat.strong_induction_on with
  | _ n ih =>
    intro a
    rw [repDigits]
    split
    · next h10 =>
      simp only [List.foldl_cons, List.foldl_nil, List.length_singleton, pow_one]
      rw [digitChar_sub_zero (Nat.mod_lt n (by omega))]
      omega
    · next h10 =>
      rw [List.foldl_append, ih (n / 10) (by omega) a]
      simp only [List.foldl_cons, List.foldl_nil, List.length_append,
        List.length_singleton]
      rw [digitChar_sub_zero (Nat.mod_lt n (by omega)), pow_succ]
      have hdm : 10 * (n / 10) + n % 10 = n := Nat.div_add_mod n 10
      set L := (repDigits (n / 10)).length
      calc (a * 10 ^ L + n / 10) * 10 + n % 10
          = a * (10 ^ L * 10) + (10 * (n / 10) + n % 10) := by ring
        _ = a * (10 ^ L * 10) + n := by rw [hdm]

theorem toNat?_eq_of_digits (s : String) (hne : s.data ≠ [])
    (hdig : ∀ c ∈ s.data, c.isDigit = true) :
    s.toNat? = some (s.data.foldl (fun m c => m * 10 + (c.toNat - '0'.toNat)) 0) := by
  have hs : s ≠ "" := fun h => hne (by rw [h])
  have hnat : s.isNat = true := by
    rw [String.isNat, Bool.and_eq_true, Bool.not_eq_true']
    refine ⟨?_, ?_⟩
    · rw [← Bool.not_eq_true]
      intro hemp
      exact hs ((String.isEmpty_iff s).mp hemp)
    · rw [String.all_eq, List.all_eq_true]
      exact hdig
  rw [String.toNat?, if_pos hnat, String.foldl_eq]

theorem toNat?_repr (n : Nat) : (Nat.repr n).toNat? = some n := by
  have hdata : (Nat.repr n).data = repDigits n := by
    rw [Nat.repr, toDigits_eq_repDigits]
    rfl
  rw [toNat?_eq_of_digits (Nat.repr n) (by rw [hdata]; exact repDigits_ne_nil n)
    (by rw [hdata]; exact repDigits_isDigit n), hdata, foldl_repDigits n 0]
  simp

theorem repr_inj {m n : Nat} (h : Nat.repr m = Nat.repr n) : m = n := by
  have hm := toNat?_repr m
  rw [h, toNat?_repr n] at hm
  exact (Option.some_inj.mp hm).symm

/-! ### Association-list lemmas for the persisted store -/

theorem lookupKey_upsert_self (p : Store) (k : String) (v : PVal) :
    lookupKey (upsert p k v) k = some v := by
  induction p with
  | nil => simp [upsert, lookupKey]
  | cons e rest ih =>
    by_cases h : e.1 = k
    · simp [upsert, lookupKey, h]
    · simp [upsert, lookupKey, h, ih]

theorem lookupKey_upsert_ne (p : Store) (k k' : String) (v : PVal) (h : k' ≠ k) :
    lookupKey (upsert p k v) k' = lookupKey p k' := by
  induction p with
  | nil => simp [upsert, lookupKey, Ne.symm h]
  | cons e rest ih =>
    by_cases he : e.1 = k
    · simp [upsert, lookupKey, he, Ne.symm h]
    · simp [upsert, lookupKey, he, ih]

theorem lookupKey_eraseKey_self (p : Store) (k : String) :
    lookupKey (eraseKey p k) k = none := by
  induction p with
  | nil => rfl
  | cons e rest ih =>
    by_cases h : e.1 = k
    · simp [eraseKey, h, ih]
    · simp [eraseKey, lookupKey, h, ih]

theorem lookupKey_eraseKey_ne (p : Store) (k k' : String) (h : k' ≠ k) :
    lookupKey (eraseKey p k) k' = lookupKey p k' := by
  induction p with
  | nil => rfl
  | cons e rest ih =>
    by_cases he : e.1 = k
    · simp [eraseKey, lookupKey, he, Ne.symm h, ih]
    · simp [eraseKey, lookupKey, he, ih]

theorem mem_of_mem_eraseKey {p : Store} {k : String} {e : String × PVal}
    (h : e ∈ eraseKey p k) : e ∈ p := by
  induction p with
  | nil => simp [eraseKey] at h
  | cons f rest ih =>
    by_cases hf : f.1 = k
    · rw [eraseKey, if_pos hf] at h
      exact List.mem_cons_of_mem f (ih h)
    · rw [eraseKey, if_neg hf] at h
      rcases List.mem_cons.mp h with h | h
      · exact h ▸ List.mem_cons_self f rest
      · exact List.mem_cons_of_mem f (ih h)

theorem key_ne_of_mem_eraseKey {p : Store} {k : String} {e : String × PVal}
    (h : e ∈ eraseKey p k) : e.1 ≠ k := by
  induction p with
  | nil => simp [eraseKey] at h
  | cons f rest ih =>
    by_cases hf : f.1 = k
    · rw [eraseKey, if_pos hf] at h
      exact ih h
    · rw [eraseKey, if_neg hf] at h
      rcases List.mem_cons.mp h with h | h
      · rw [h]
        exact hf
      · exact ih h

theorem lookupKey_isSome_of_mem {p : Store} {k : String} {v : PVal}
    (h : (k, v) ∈ p) : (lookupKey p k).isSome = true := by
  induction p with
  | nil => simp at h
  | cons e rest ih =>
    rcases List.mem_cons.mp h with h | h
    · rw [lookupKey, ← h]
      simp
    · by_cases he : e.1 = k
      · simp [lookupKey, he]
      · rw [lookupKey, if_neg he]
        exact ih h

theorem upsert_upsert_same (p : Store) (k : String) (v : PVal) :
    upsert (upsert p k v) k v = upsert p k v := by
  induction p with
  | nil => simp [upsert]
  | cons e rest ih =>
    by_cases h : e.1 = k
    · simp [upsert, h]
    · simp [upsert, h, ih]

theorem eraseKey_eraseKey (p : Store) (k : String) :
    eraseKey (eraseKey p k) k = eraseKey p k := by
  induction p with
  | nil => rfl
  | cons e rest ih =>
    by_cases h : e.1 = k
    · simp [eraseKey, h, ih]
    · simp [eraseKey, h, ih]

/-! ### Reconciliation fold lemmas -/

theorem length_reconcileCodedStep (n : Nat) (acc : List (Option Nat)) (e : String × PVal) :
    (reconcileCodedStep n acc e).length = acc.length := by
  rcases he : e.1.toNat? with _ | i <;> rcases hv : e.2 with ⟨g, c⟩ | ⟨v⟩ <;>
    simp only [reconcileCodedStep, he, hv] <;> split <;> simp

theorem length_reconcileContextStep (n : Nat) (acc : List (Option Nat)) (e : String × PVal) :
    (reconcileContextStep n acc e).length = acc.length := by
  rcases he : e.1.toNat? with _ | i <;> rcases hv : e.2 with ⟨g, c⟩ | ⟨v⟩ <;>
    simp only [reconcileContextStep, he, hv] <;> try rfl
  all_goals split
  · rcases c with _ | c <;> simp
  · rfl
  · simp
  · rfl

theorem getD_reconcileCodedStep_ne (n : Nat) (acc : List (Option Nat)) (e : String × PVal)
    (i : Nat) (h : e.1.toNat? ≠ some i) :
    (reconcileCodedStep n acc e).getD i none = acc.getD i none := by
  rcases he : e.1.toNat? with _ | j
  · simp [reconcileCodedStep, he]
  · have hj : j ≠ i := fun hji => h (by rw [he, hji])
    rcases hv : e.2 with ⟨g, c⟩ | ⟨v⟩ <;> simp only [reconcileCodedStep, he, hv] <;>
      split <;> simp [List.getD_eq_getElem?_getD, List.getElem?_set_ne hj]

theorem getD_reconcileContextStep_ne (n : Nat) (acc : List (Option Nat)) (e : String × PVal)
    (i : Nat) (h : e.1.toNat? ≠ some i) :
    (reconcileContextStep n acc e).getD i none = acc.getD i none := by
  rcases he : e.1.toNat? with _ | j
  · simp [reconcileContextStep, he]
  · have hj : j ≠ i := fun hji => h (by rw [he, hji])
    rcases hv : e.2 with ⟨g, c⟩ | ⟨v⟩ <;> simp only [reconcileContextStep, he, hv]
    · split
      · rcases c with _ | c <;>
          simp [List.getD_eq_getElem?_getD, List.getElem?_set_ne hj]
      · rfl
    · split <;> rfl

theorem length_foldl_step (step : List (Option Nat) → (String × PVal) → List (Option Nat))
    (hstep : ∀ acc e, (step acc e).length = acc.length) :
    ∀ (q : Store) (acc : List (Option Nat)), (q.foldl step acc).length = acc.length := by
  intro q
  induction q with
  | nil => intro acc; rfl
  | cons e rest ih =>
    intro acc
    rw [List.foldl_cons, ih, hstep]

theorem getD_foldl_no_target (step : List (Option Nat) → (String × PVal) → List (Option Nat))
    (i : Nat)
    (hstep : ∀ acc e, e.1.toNat? ≠ some i → (step acc e).getD i none = acc.getD i none) :
    ∀ (q : Store) (acc : List (Option Nat)),
      (∀ e ∈ q, e.1.toNat? ≠ some i) →
      (q.foldl step acc).getD i none = acc.getD i none := by
  intro q
  induction q with
  | nil => intro acc _; rfl
  | cons e rest ih =>
    intro acc hq
    rw [List.foldl_cons,
      ih (step acc e) (fun f hf => hq f (List.mem_cons_of_mem e hf)),
      hstep acc e (hq e (List.mem_cons_self e rest))]

theorem target_of_getD_foldl (step : List (Option Nat) → (String × PVal) → List (Option Nat))
    (i : Nat)
    (hstep : ∀ acc e, e.1.toNat? ≠ some i → (step acc e).getD i none = acc.getD i none) :
    ∀ (q : Store) (acc : List (Option Nat)),
      (q.foldl step acc).getD i none ≠ none →
      (∃ e ∈ q, e.1.toNat? = some i) ∨ acc.getD i none ≠ none := by
  intro q
  induction q with
  | nil => intro acc h; exact Or.inr h
  | cons e rest ih =>
    intro acc h
    rw [List.foldl_cons] at h
    rcases ih (step acc e) h with he | he
    · obtain ⟨f, hf, hft⟩ := he
      exact Or.inl ⟨f, List.mem_cons_of_mem e hf, hft⟩
    · by_cases ht : e.1.toNat? = some i
      · exact Or.inl ⟨e, List.mem_cons_self e rest, ht⟩
      · rw [hstep acc e ht] at he
        exact Or.inr he

/-! ### Small `getD` helpers -/

theorem getD_set_same (l : List (Option Nat)) (i : Nat) (x : Option Nat) (h : i < l.length) :
    (l.set i x).getD i none = x := by
  rw [List.getD_eq_getElem?_getD, List.getElem?_set_self (by simpa using h)]
  rfl

theorem getD_set_none (l : List (Option Nat)) (i : Nat) :
    (l.set i none).getD i none = none := by
  rcases Nat.lt_or_ge i l.length with h | h
  · exact getD_set_same l i none h
  · rw [List.getD_eq_getElem?_getD, List.getElem?_eq_none (by simpa using h)]
    rfl

theorem getD_set_ne (l : List (Option Nat)) (i j : Nat) (x : Option Nat) (h : j ≠ i) :
    (l.set i x).getD j none = l.getD j none := by
  rw [List.getD_eq_getElem?_getD, List.getD_eq_getElem?_getD,
    List.getElem?_set_ne (Ne.symm h)]

theorem getD_replicate_none (n i : Nat) :
    (List.replicate n (none : Option Nat)).getD i none = none := by
  rw [List.getD_eq_getElem?_getD, List.getElem?_replicate]
  split <;> rfl

/-! ### Claim C5 -/

theorem reconcileCodedStep_skip (n : Nat) (acc : List (Option Nat)) (e : String × PVal)
    (h : e.1.toNat? = none ∨ ∀ j : Nat, e.1.toNat? = some j → n ≤ j) :
    reconcileCodedStep n acc e = acc := by
  rcases he : e.1.toNat? with _ | j
  · simp [reconcileCodedStep, he]
  · rcases h with h | h
    · rw [h] at he
      cases he
    · have hj : ¬j < n := Nat.not_lt.mpr (h j he)
      rcases hv : e.2 with ⟨g, c⟩ | ⟨v⟩ <;> simp [reconcileCodedStep, he, hv, hj]

theorem reconcileContextStep_skip (n : Nat) (acc : List (Option Nat)) (e : String × PVal)
    (h : e.1.toNat? = none ∨ ∀ j : Nat, e.1.toNat? = some j → n ≤ j) :
    reconcileContextStep n acc e = acc := by
  rcases he : e.1.toNat? with _ | j
  · simp [reconcileContextStep, he]
  · rcases h with h | h
    · rw [h] at he
      cases he
    · have hj : ¬j < n := Nat.not_lt.mpr (h j he)
      rcases hv : e.2 with ⟨g, c⟩ | ⟨v⟩ <;> simp [reconcileContextStep, he, hv, hj]

/-- Claim C5: for every item count `n` and every persisted store,
reconciliation produces label sequences of length exactly `n`, and an
entry whose key is non-numeric (`toNat?` is `none` exactly on the keys
`isdigit()` rejects) or whose numeric index is not below `n` is silently
skipped: deleting that entry from the store leaves both reconciled
sequences unchanged, so only entries with valid indices below `n`
contribute labels, and initialization never fails. -/
theorem c5_reconcile_length_and_skip (n : Nat) (p p1 p2 : Store) (k : String) (v : PVal)
    (hbad : k.toNat? = none ∨ ∀ j : Nat, k.toNat? = some j → n ≤ j) :
    (reconcileCoded n p).length = n ∧
    (reconcileContext n p).length = n ∧
    reconcileCoded n (p1 ++ (k, v) :: p2) = reconcileCoded n (p1 ++ p2) ∧
    reconcileContext n (p1 ++ (k, v) :: p2) = reconcileContext n (p1 ++ p2) := by
  refine ⟨?_, ?_, ?_, ?_⟩
  · rw [reconcileCoded, length_foldl_step _ (length_reconcileCodedStep n) p,
      List.length_replicate]
  · rw [reconcileContext, length_foldl_step _ (length_reconcileContextStep n) p,
      List.length_replicate]
  · rw [reconcileCoded, reconcileCoded, List.foldl_append, List.foldl_append,
      List.foldl_cons, reconcileCodedStep_skip n _ (k, v) hbad]
  · rw [reconcileContext, reconcileContext, List.foldl_append, List.foldl_append,
      List.foldl_cons, reconcileContextStep_skip n _ (k, v) hbad]

/-- Witness for C5 at a concrete input: a store holding one entry whose
numeric index 5 is out of range for `n = 1`. -/
theorem c5_witness :
    (reconcileCoded 1 [(Nat.repr 5, PVal.legacy (some 3))]).length = 1 ∧
    (reconcileContext 1 [(Nat.repr 5, PVal.legacy (some 3))]).length = 1 ∧
    reconcileCoded 1 ([] ++ (Nat.repr 5, PVal.legacy (some 3)) :: []) =
      reconcileCoded 1 ([] ++ []) ∧
    reconcileContext 1 ([] ++ (Nat.repr 5, PVal.legacy (some 3)) :: []) =
      reconcileContext 1 ([] ++ []) :=
  c5_reconcile_length_and_skip 1 [(Nat.repr 5, PVal.legacy (some 3))] [] []
    (Nat.repr 5) (PVal.legacy (some 3))
    (Or.inr (fun j hj => by
      rw [toNat?_repr] at hj
      injection hj with hj
      omega))

/-! ### Claim C6 -/

/-- Claim C6: a persisted entry that is a bare legacy value `v` under a key
with valid numeric index `i` reconciles to `coded_labels[i] = v` and
leaves `context_labels[i]` null.  The hypotheses on `p1` and `p2` say
the shown entry is the store's only entry for index `i` (store keys are
dict keys, hence unique up to the `int(...)` value). -/
theorem c6_legacy_reconcile (n i : Nat) (p1 p2 : Store) (k : String) (v : Option Nat)
    (hk : k.toNat? = some i) (hi : i < n)
    (h1 : ∀ e ∈ p1, e.1.toNat? ≠ some i) (h2 : ∀ e ∈ p2, e.1.toNat? ≠ some i) :
    (reconcileCoded n (p1 ++ (k, PVal.legacy v) :: p2)).getD i none = v ∧
    (reconcileContext n (p1 ++ (k, PVal.legacy v) :: p2)).getD i none = none := by
  constructor
  · rw [reconcileCoded, List.foldl_append, List.foldl_cons,
      getD_foldl_no_target _ i (fun acc e h => getD_reconcileCodedStep_ne n acc e i h)
        p2 _ h2]
    have hlen : (p1.foldl (reconcileCodedStep n) (List.replicate n none)).length = n := by
      rw [length_foldl_step _ (length_reconcileCodedStep n), List.length_replicate]
    have hstep : reconcileCodedStep n
          (p1.foldl (reconcileCodedStep n) (List.replicate n none)) (k, PVal.legacy v)
        = (p1.foldl (reconcileCodedStep n) (List.replicate n none)).set i v := by
      simp [reconcileCodedStep, hk, hi]
    rw [hstep, getD_set_same _ i v (by omega)]
  · rw [reconcileContext, List.foldl_append, List.foldl_cons,
      getD_foldl_no_target _ i (fun acc e h => getD_reconcileContextStep_ne n acc e i h)
        p2 _ h2]
    have hstep : reconcileContextStep n
          (p1.foldl (reconcileContextStep n) (List.replicate n none)) (k, PVal.legacy v)
        = p1.foldl (reconcileContextStep n) (List.replicate n none) := by
      simp [reconcileContextStep, hk, hi]
    rw [hstep,
      getD_foldl_no_target _ i (fun acc e h => getD_reconcileContextStep_ne n acc e i h)
        p1 _ h1, getD_replicate_none]

/-- Witness for C6 at a concrete input: store `{"2": 3}` with `n = 3`. -/
theorem c6_witness :
    (reconcileCoded 3 ([] ++ (Nat.repr 2, PVal.legacy (some 3)) :: [])).getD 2 none
      = some 3 ∧
    (reconcileContext 3 ([] ++ (Nat.repr 2, PVal.legacy (some 3)) :: [])).getD 2 none
      = none :=
  c6_legacy_reconcile 3 2 [] [] (Nat.repr 2) (some 3) (toNat?_repr 2) (by omega)
    (fun e he => absurd he (List.not_mem_nil e))
    (fun e he => absurd he (List.not_mem_nil e))

/-! ### Claim C4 -/

/-- A store built only from `str(j)` keys is canonical; used to
discharge the canonicity hypotheses of the claims at concrete inputs. -/
theorem canonical_nil : Canonical [] :=
  fun e he => absurd he (List.not_mem_nil e)

theorem canonical_cons_repr (j : Nat) (v : PVal) (p : Store) (hp : Canonical p) :
    Canonical ((Nat.repr j, v) :: p) := by
  intro e he i hti
  rcases List.mem_cons.mp he with he | he
  · subst he
    dsimp only at hti ⊢
    rw [toNat?_repr] at hti
    injection hti with hti
    rw [← hti]
  · exact hp e he i hti

/-- Claim C4: `clear i` nulls both in-memory labels at `i` and removes the
persisted entry for `i` entirely — afterwards the store has no entry
under key `str(i)` at all (not merely a nulled record) — and a fresh
session reconciled from the resulting store has a null group label at
`i`, i.e. treats `i` as uncoded.  The canonicity hypothesis says the
store's numeric keys are written the way the program writes them. -/
theorem c4_clear (s : SessionState) (i n : Nat) (hc : Canonical s.progress) :
    (clear s i).coded_labels.getD i none = none ∧
    (clear s i).context_labels.getD i none = none ∧
    lookupKey (clear s i).progress (Nat.repr i) = none ∧
    (initState n (clear s i).progress).coded_labels.getD i none = none := by
  refine ⟨getD_set_none _ i, getD_set_none _ i, lookupKey_eraseKey_self _ _, ?_⟩
  by_contra hne
  rcases target_of_getD_foldl _ i (fun acc e h => getD_reconcileCodedStep_ne n acc e i h)
      (eraseKey s.progress (Nat.repr i)) (List.replicate n none) hne with ⟨e, he, ht⟩ | habs
  · exact key_ne_of_mem_eraseKey he (hc e (mem_of_mem_eraseKey he) i ht)
  · exact habs (getD_replicate_none n i)

/-- Witness for C4 at a concrete input: a one-item session whose item 0
is coded with group 1 and context 2, then cleared. -/
theorem c4_witness :
    (clear ⟨[some 1], [some 2], 0, [(Nat.repr 0, PVal.record (some 1) (some (some 2)))]⟩
      0).coded_labels.getD 0 none = none ∧
    (clear ⟨[some 1], [some 2], 0, [(Nat.repr 0, PVal.record (some 1) (some (some 2)))]⟩
      0).context_labels.getD 0 none = none ∧
    lookupKey (clear ⟨[some 1], [some 2], 0,
      [(Nat.repr 0, PVal.record (some 1) (some (some 2)))]⟩ 0).progress (Nat.repr 0)
      = none ∧
    (initState 1 (clear ⟨[some 1], [some 2], 0,
      [(Nat.repr 0, PVal.record (some 1) (some (some 2)))]⟩ 0).progress).coded_labels.getD
      0 none = none :=
  c4_clear ⟨[some 1], [some 2], 0, [(Nat.repr 0, PVal.record (some 1) (some (some 2)))]⟩
    0 1 (canonical_cons_repr 0 (PVal.record (some 1) (some (some 2))) [] canonical_nil)

/-! ### Claim C7 -/

/-- Claim C7: `set_group_label i code` sets `coded_labels[i] = code`, upserts
the persisted entry for `i` to the record
`{group_label: code, context: context_labels[i]}`, leaves the whole
`context_labels` sequence unchanged, leaves `current_index` unchanged
(no auto-advance), and leaves every other persisted entry unchanged. -/
theorem c7_set_group_label (s : SessionState) (i c : Nat) (h : i < s.coded_labels.length) :
    (set_group_label s i c).coded_labels.getD i none = some c ∧
    (set_group_label s i c).context_labels = s.context_labels ∧
    (set_group_label s i c).current_index = s.current_index ∧
    lookupKey (set_group_label s i c).progress (Nat.repr i)
      = some (PVal.record (some c) (some (s.context_labels.getD i none))) ∧
    ∀ k, k ≠ Nat.repr i →
      lookupKey (set_group_label s i c).progress k = lookupKey s.progress k := by
  refine ⟨getD_set_same _ i (some c) h, rfl, rfl, lookupKey_upsert_self _ _ _,
    fun k hk => lookupKey_upsert_ne _ _ k _ hk⟩

/-- Witness for C7 at a concrete input: a one-item session with item 0
uncoded and context Newscast already set. -/
theorem c7_witness :
    (set_group_label ⟨[none], [some 1], 0, []⟩ 0 2).coded_labels.getD 0 none = some 2 ∧
    (set_group_label ⟨[none], [some 1], 0, []⟩ 0 2).context_labels
      = ([some 1] : List (Option Nat)) ∧
    (set_group_label ⟨[none], [some 1], 0, []⟩ 0 2).current_index = 0 ∧
    lookupKey (set_group_label ⟨[none], [some 1], 0, []⟩ 0 2).progress (Nat.repr 0)
      = some (PVal.record (some 2) (some (([some 1] : List (Option Nat)).getD 0 none))) ∧
    ∀ k, k ≠ Nat.repr 0 →
      lookupKey (set_group_label ⟨[none], [some 1], 0, []⟩ 0 2).progress k
        = lookupKey [] k :=
  c7_set_group_label ⟨[none], [some 1], 0, []⟩ 0 2 (by decide)

/-! ### Claim C10 -/

/-- Claim C10: after `set_group_label` or `toggle_context_label` on index `i`,
the persisted entry for `i` is a record whose `group_label` and
`context` fields equal the in-memory `coded_labels[i]` and
`context_labels[i]` of the resulting state.  In particular the entry is
a record no matter what was stored before, so a legacy bare-value entry
is upgraded to the record format by the first mutation on its index. -/
theorem c10_write_through (s : SessionState) (i c : Nat) (h : i < s.coded_labels.length) :
    lookupKey (set_group_label s i c).progress (Nat.repr i)
      = some (PVal.record ((set_group_label s i c).coded_labels.getD i none)
          (some ((set_group_label s i c).context_labels.getD i none))) ∧
    lookupKey (toggle_context_label s i c).progress (Nat.repr i)
      = some (PVal.record ((toggle_context_label s i c).coded_labels.getD i none)
          (some ((toggle_context_label s i c).context_labels.getD i none))) := by
  constructor
  · rw [show (set_group_label s i c).coded_labels.getD i none = some c from
      getD_set_same _ i (some c) h]
    exact lookupKey_upsert_self _ _ _
  · exact lookupKey_upsert_self _ _ _

/-- Witness for C10 at a concrete input: a one-item session whose
persisted entry for item 0 is still in the legacy bare-value format; the
mutation upgrades it to a record. -/
theorem c10_witness :
    lookupKey (set_group_label ⟨[none], [none], 0, [(Nat.repr 0, PVal.legacy (some 2))]⟩
        0 1).progress (Nat.repr 0)
      = some (PVal.record
          ((set_group_label ⟨[none], [none], 0, [(Nat.repr 0, PVal.legacy (some 2))]⟩
            0 1).coded_labels.getD 0 none)
          (some ((set_group_label ⟨[none], [none], 0,
            [(Nat.repr 0, PVal.legacy (some 2))]⟩ 0 1).context_labels.getD 0 none))) ∧
    lookupKey (toggle_context_label ⟨[none], [none], 0,
        [(Nat.repr 0, PVal.legacy (some 2))]⟩ 0 1).progress (Nat.repr 0)
      = some (PVal.record
          ((toggle_context_label ⟨[none], [none], 0,
            [(Nat.repr 0, PVal.legacy (some 2))]⟩ 0 1).coded_labels.getD 0 none)
          (some ((toggle_context_label ⟨[none], [none], 0,
            [(Nat.repr 0, PVal.legacy (some 2))]⟩ 0 1).context_labels.getD 0 none))) :=
  c10_write_through ⟨[none], [none], 0, [(Nat.repr 0, PVal.legacy (some 2))]⟩ 0 1
    (by decide)

/-! ### Claim C3 -/

/-- Claim C3 (amended): `toggle_context_label i c` clears `context_labels[i]`
to null when it currently equals `c` and otherwise sets it to `c`
(replacing any previously stored context); consequently toggling the
same code twice returns `context_labels[i]` to null provided it did not
already equal that code beforehand.  (When it already equals the code,
two toggles restore it to the code — see the counterexample.) -/
theorem c3_toggle (s : SessionState) (i c : Nat) (h : i < s.context_labels.length)
    (_hc : c = 1 ∨ c = 2) :
    (toggle_context_label s i c).context_labels.getD i none
      = (if s.context_labels.getD i none = some c then none else some c) ∧
    (s.context_labels.getD i none ≠ some c →
      (toggle_context_label (toggle_context_label s i c) i c).context_labels.getD i none
        = none) := by
  have key : ∀ t : SessionState, i < t.context_labels.length →
      (toggle_context_label t i c).context_labels.getD i none
        = (if t.context_labels.getD i none = some c then none else some c) := by
    intro t ht
    simp only [toggle_context_label]
    exact getD_set_same _ i _ ht
  refine ⟨key s h, fun hne => ?_⟩
  have hlen : i < (toggle_context_label s i c).context_labels.length := by
    simp only [toggle_context_label, List.length_set]
    exact h
  rw [key _ hlen, key s h, if_neg hne]
  simp

/-- Counterexample to claim C3: in a reachable state whose context at index 0 is
already Newscast, toggling Newscast twice in succession leaves the
context equal to Newscast again, not null (the first toggle clears it,
the second re-sets it). -/
theorem c3_counterexample :
    (toggle_context_label (toggle_context_label
        (toggle_context_label (initState 1 []) 0 1) 0 1) 0 1).context_labels.getD 0 none
      ≠ none := by decide

/-- Witness for C3 at a concrete input: one item, context currently
Congress, toggling Newscast. -/
theorem c3_witness :
    ((toggle_context_label ⟨[none], [some 2], 0, []⟩ 0 1).context_labels.getD 0 none
      = (if ([some 2] : List (Option Nat)).getD 0 none = some 1 then none else some 1)) ∧
    (([some 2] : List (Option Nat)).getD 0 none ≠ some 1 →
      (toggle_context_label (toggle_context_label ⟨[none], [some 2], 0, []⟩ 0 1)
        0 1).context_labels.getD 0 none = none) :=
  c3_toggle ⟨[none], [some 2], 0, []⟩ 0 1 (by decide) (Or.inl rfl)

/-! ### Claim C2 -/

/-- Claim C2 (amended): `set_group_label` and `clear` are idempotent — applying
either twice with the same arguments yields exactly the same state
(in-memory sequences, cursor and persisted store) as applying it once.
`toggle_context_label` is not idempotent: it flips the stored context,
so a second application undoes the first (see the counterexample). -/
theorem c2_set_clear_idempotent (s : SessionState) (i c : Nat) :
    set_group_label (set_group_label s i c) i c = set_group_label s i c ∧
    clear (clear s i) i = clear s i := by
  constructor
  · simp [set_group_label, List.set_set, upsert_upsert_same]
  · simp [clear, List.set_set, eraseKey_eraseKey]

/-- Counterexample to claim C2: starting from a freshly initialized one-item
session, applying `toggle_context_label 0 Newscast` twice does not yield
the state that one application yields: one toggle stores context
Newscast, two toggles store a null context. -/
theorem c2_counterexample :
    toggle_context_label (toggle_context_label (initState 1 []) 0 1) 0 1
      ≠ toggle_context_label (initState 1 []) 0 1 := by decide

/-! ### Claim C1 -/

/-- Claim C1 (amended): the direction of the claimed invariant that holds in
the code — whenever `coded_labels[i]` or `context_labels[i]` is
non-null, a persisted entry for `i` exists.  It is established by
initialization from any store whose numeric keys are canonical
(`str(i)`-formed, as the program writes them) and preserved by
`set_group_label`, `toggle_context_label` and `clear`.  The converse
direction of the claimed equivalence is false: toggling a context off
leaves a persisted record with both fields null instead of removing the
entry (see the counterexample). -/
theorem c1_entry_invariant (n : Nat) (p : Store) (s : SessionState) (i c : Nat)
    (hp : Canonical p) (hs : EntryInv s) :
    EntryInv (initState n p) ∧
    EntryInv (set_group_label s i c) ∧
    EntryInv (toggle_context_label s i c) ∧
    EntryInv (clear s i) := by
  refine ⟨?_, ?_, ?_, ?_⟩
  · intro j hj hlab
    dsimp only [initState, reconcileCoded, reconcileContext] at hj hlab ⊢
    have htarget : ∃ e ∈ p, e.1.toNat? = some j := by
      rcases hlab with hlab | hlab
      · rcases target_of_getD_foldl _ j
            (fun acc e h => getD_reconcileCodedStep_ne n acc e j h) p
            (List.replicate n none) hlab with h | h
        · exact h
        · exact absurd (getD_replicate_none n j) h
      · rcases target_of_getD_foldl _ j
            (fun acc e h => getD_reconcileContextStep_ne n acc e j h) p
            (List.replicate n none) hlab with h | h
        · exact h
        · exact absurd (getD_replicate_none n j) h
    obtain ⟨e, he, ht⟩ := htarget
    have hkey : e.1 = Nat.repr j := hp e he j ht
    exact lookupKey_isSome_of_mem (v := e.2) (by rw [← hkey]; exact he)
  · intro j hj hlab
    dsimp only [set_group_label] at hj hlab ⊢
    by_cases hji : j = i
    · subst hji
      rw [lookupKey_upsert_self]
      rfl
    · have hrne : Nat.repr j ≠ Nat.repr i := fun hr => hji (repr_inj hr)
      rw [lookupKey_upsert_ne _ _ _ _ hrne]
      apply hs j (by simpa using hj)
      rcases hlab with hlab | hlab
      · rw [getD_set_ne _ i j (some c) hji] at hlab
        exact Or.inl hlab
      · exact Or.inr hlab
  · intro j hj hlab
    dsimp only [toggle_context_label] at hj hlab ⊢
    by_cases hji : j = i
    · subst hji
      rw [lookupKey_upsert_self]
      rfl
    · have hrne : Nat.repr j ≠ Nat.repr i := fun hr => hji (repr_inj hr)
      rw [lookupKey_upsert_ne _ _ _ _ hrne]
      apply hs j hj
      rcases hlab with hlab | hlab
      · exact Or.inl hlab
      · rw [getD_set_ne _ i j _ hji] at hlab
        exact Or.inr hlab
  · intro j hj hlab
    dsimp only [clear] at hj hlab ⊢
    by_cases hji : j = i
    · subst hji
      rcases hlab with hlab | hlab
      · exact absurd (getD_set_none _ j) hlab
      · exact absurd (getD_set_none _ j) hlab
    · have hrne : Nat.repr j ≠ Nat.repr i := fun hr => hji (repr_inj hr)
      rw [lookupKey_eraseKey_ne _ _ _ hrne]
      apply hs j (by simpa using hj)
      rcases hlab with hlab | hlab
      · rw [getD_set_ne _ i j none hji] at hlab
        exact Or.inl hlab
      · rw [getD_set_ne _ i j none hji] at hlab
        exact Or.inr hlab

/-- Counterexample to claim C1: from a freshly initialized empty one-item
session, toggling Newscast on and then off reaches a state in which a
persisted entry for index 0 exists while both `coded_labels[0]` and
`context_labels[0]` are null — the claimed "entry exists iff some label
is non-null" equivalence is not preserved by `toggle_context_label`. -/
theorem c1_counterexample :
    (lookupKey (toggle_context_label (toggle_context_label (initState 1 []) 0 1)
        0 1).progress (Nat.repr 0)).isSome = true ∧
    (toggle_context_label (toggle_context_label (initState 1 []) 0 1)
        0 1).coded_labels.getD 0 none = none ∧
    (toggle_context_label (toggle_context_label (initState 1 []) 0 1)
        0 1).context_labels.getD 0 none = none := by decide

/-- Witness for C1 at a concrete input: a canonical one-entry store and
a one-item session whose invariant holds. -/
theorem c1_witness :
    EntryInv (initState 1 [(Nat.repr 0, PVal.record (some 1) (some none))]) ∧
    EntryInv (set_group_label
      ⟨[some 1], [none], 0, [(Nat.repr 0, PVal.record (some 1) (some none))]⟩ 0 2) ∧
    EntryInv (toggle_context_label
      ⟨[some 1], [none], 0, [(Nat.repr 0, PVal.record (some 1) (some none))]⟩ 0 2) ∧
    EntryInv (clear
      ⟨[some 1], [none], 0, [(Nat.repr 0, PVal.record (some 1) (some none))]⟩ 0) :=
  c1_entry_invariant 1 [(Nat.repr 0, PVal.record (some 1) (some none))]
    ⟨[some 1], [none], 0, [(Nat.repr 0, PVal.record (some 1) (some none))]⟩ 0 2
    (canonical_cons_repr 0 (PVal.record (some 1) (some none)) [] canonical_nil)
    (by
      intro j hj hlab
      have hj0 : j = 0 := Nat.lt_one_iff.mp (by simpa using hj)
      subst hj0
      decide)

/-! ### Claim C8 -/

/-- Claim C8: export emits one row per index `0 ≤ i < n`; the row for `i` is
determined by the persisted entry under `str(i)`: a record contributes
its `group_label` and `context` fields (an absent `context` field reads
as null), a bare legacy value contributes itself as the group label with
null context, and an absent entry contributes a null pair.  The last
conjunct is the spec's concrete scenario: `n = 2`, store
`{"0": {group_label: 3, context: 2}, "1": 0}`. -/
theorem c8_export (p : Store) (n i : Nat) (hi : i < n) :
    (exportRows p n).length = n ∧
    (exportRows p n).getD i (none, none) = exportRow p i ∧
    (∀ g c, lookupKey p (Nat.repr i) = some (PVal.record g c) →
      exportRow p i = (g, c.getD none)) ∧
    (∀ v, lookupKey p (Nat.repr i) = some (PVal.legacy v) →
      exportRow p i = (v, none)) ∧
    (lookupKey p (Nat.repr i) = none → exportRow p i = (none, none)) ∧
    exportRows [(Nat.repr 0, PVal.record (some 3) (some (some 2))),
        (Nat.repr 1, PVal.legacy (some 0))] 2
      = [(some 3, some 2), (some 0, none)] := by
  refine ⟨?_, ?_, ?_, ?_, ?_, by decide⟩
  · rw [exportRows, List.length_map, List.length_range]
  · rw [exportRows, List.getD_eq_getElem?_getD, List.getElem?_map, List.getElem?_range hi]
    rfl
  · intro g c hl
    rw [exportRow, hl]
  · intro v hl
    rw [exportRow, hl]
  · intro hl
    rw [exportRow, hl]

/-- Witness for C8 at a concrete input: the spec's export scenario,
looked at through the general conjuncts at row 0. -/
theorem c8_witness :
    (exportRows [(Nat.repr 0, PVal.record (some 3) (some (some 2))),
        (Nat.repr 1, PVal.legacy (some 0))] 2).length = 2 ∧
    (exportRows [(Nat.repr 0, PVal.record (some 3) (some (some 2))),
        (Nat.repr 1, PVal.legacy (some 0))] 2).getD 0 (none, none)
      = exportRow [(Nat.repr 0, PVal.record (some 3) (some (some 2))),
        (Nat.repr 1, PVal.legacy (some 0))] 0 ∧
    (∀ g c, lookupKey [(Nat.repr 0, PVal.record (some 3) (some (some 2))),
        (Nat.repr 1, PVal.legacy (some 0))] (Nat.repr 0) = some (PVal.record g c) →
      exportRow [(Nat.repr 0, PVal.record (some 3) (some (some 2))),
        (Nat.repr 1, PVal.legacy (some 0))] 0 = (g, c.getD none)) ∧
    (∀ v, lookupKey [(Nat.repr 0, PVal.record (some 3) (some (some 2))),
        (Nat.repr 1, PVal.legacy (some 0))] (Nat.repr 0) = some (PVal.legacy v) →
      exportRow [(Nat.repr 0, PVal.record (some 3) (some (some 2))),
        (Nat.repr 1, PVal.legacy (some 0))] 0 = (v, none)) ∧
    (lookupKey [(Nat.repr 0, PVal.record (some 3) (some (some 2))),
        (Nat.repr 1, PVal.legacy (some 0))] (Nat.repr 0) = none →
      exportRow [(Nat.repr 0, PVal.record (some 3) (some (some 2))),
        (Nat.repr 1, PVal.legacy (some 0))] 0 = (none, none)) ∧
    exportRows [(Nat.repr 0, PVal.record (some 3) (some (some 2))),
        (Nat.repr 1, PVal.legacy (some 0))] 2
      = [(some 3, some 2), (some 0, none)] :=
  c8_export [(Nat.repr 0, PVal.record (some 3) (some (some 2))),
    (Nat.repr 1, PVal.legacy (some 0))] 2 0 (by omega)

/-! ### Claim C9 -/

theorem find?_uncoded_range' (coded : List (Option Nat)) :
    ∀ (cnt s : Nat),
      (∀ r, (List.range' s cnt).find? (fun i => (coded.getD i none).isNone) = some r →
        s ≤ r ∧ r < s + cnt ∧ coded.getD r none = none ∧
        ∀ j, s ≤ j → j < r → coded.getD j none ≠ none) ∧
      ((List.range' s cnt).find? (fun i => (coded.getD i none).isNone) = none →
        ∀ j, s ≤ j → j < s + cnt → coded.getD j none ≠ none) := by
  intro cnt
  induction cnt with
  | zero =>
    intro s
    constructor
    · intro r hr
      simp at hr
    · intro _ j hj1 hj2
      omega
  | succ cn ih =>
    intro s
    rw [List.range'_succ]
    by_cases hs : (coded.getD s none).isNone = true
    · constructor
      · intro r hr
        rw [List.find?_cons_of_pos (p := fun i => (coded.getD i none).isNone) _ hs] at hr
        injection hr with hr
        subst hr
        exact ⟨Nat.le_refl _, by omega, Option.isNone_iff_eq_none.mp hs,
          fun j hj1 hj2 => absurd hj2 (Nat.not_lt.mpr hj1)⟩
      · intro hr
        rw [List.find?_cons_of_pos (p := fun i => (coded.getD i none).isNone) _ hs] at hr
        cases hr
    · constructor
      · intro r hr
        rw [List.find?_cons_of_neg (p := fun i => (coded.getD i none).isNone) _ hs] at hr
        obtain ⟨h1, h2, h3, h4⟩ := (ih (s + 1)).1 r hr
        refine ⟨by omega, by omega, h3, fun j hj1 hj2 => ?_⟩
        rcases Nat.eq_or_lt_of_le hj1 with hj | hj
        · rw [← hj]
          intro hnone
          exact hs (Option.isNone_iff_eq_none.mpr hnone)
        · exact h4 j hj hj2
      · intro hr j hj1 hj2
        rw [List.find?_cons_of_neg (p := fun i => (coded.getD i none).isNone) _ hs] at hr
        rcases Nat.eq_or_lt_of_le hj1 with hj | hj
        · rw [← hj]
          intro hnone
          exact hs (Option.isNone_iff_eq_none.mpr hnone)
        · exact (ih (s + 1)).2 hr j hj (by omega)

/-- Claim C9: `find_next_uncoded after` returns the smallest index strictly
greater than `after` at which `coded_labels` is null, and returns none
when no such index below the sequence length exists; it reads only
`coded_labels`, with no effect on the label sequences or the store. -/
theorem c9_find_next_uncoded (coded : List (Option Nat)) (after : Nat) :
    (∀ r, find_next_uncoded coded after = some r →
      after < r ∧ r < coded.length ∧ coded.getD r none = none ∧
      ∀ j, after < j → j < r → coded.getD j none ≠ none) ∧
    (find_next_uncoded coded after = none →
      ∀ j, after < j → j < coded.length → coded.getD j none ≠ none) := by
  have h := find?_uncoded_range' coded (coded.length - (after + 1)) (after + 1)
  constructor
  · intro r hr
    have hcnt : coded.length - (after + 1) ≠ 0 := fun h0 => by
      rw [find_next_uncoded, h0] at hr
      simp at hr
    rw [find_next_uncoded] at hr
    obtain ⟨h1, h2, h3, h4⟩ := h.1 r hr
    exact ⟨by omega, by omega, h3, fun j hj1 hj2 => h4 j (by omega) hj2⟩
  · intro hr j hj1 hj2
    rw [find_next_uncoded] at hr
    exact h.2 hr j (by omega) (by omega)

/-- Witness for C9 at a concrete input: three items with only the last
uncoded; the query from position 0 finds index 2 and the indices in
between are indeed coded. -/
theorem c9_witness :
    (0 : Nat) < 2 ∧ 2 < ([some 0, some 1, none] : List (Option Nat)).length ∧
    ([some 0, some 1, none] : List (Option Nat)).getD 2 none = none ∧
    ∀ j, (0 : Nat) < j → j < 2 →
      ([some 0, some 1, none] : List (Option Nat)).getD j none ≠ none :=
  (c9_find_next_uncoded [some 0, some 1, none] 0).1 2 (by decide)

end ImageCoding
